import Mathlib

/-!
Shallow embedding of `pam2qoi.cpp` (the PAM-to-QOI converter) and proofs
about the claims of its specification.

The embedding follows the source file:
  * `Pixel`, `Image`, `Image.getPixel`  — the `Image` class and its pixel
    accessor (out-of-bounds reads return a default-constructed pixel,
    whose member initializers are `r = 0, g = 0, b = 0, a = 255`);
  * `encodePixel`, `chunkOps`, `encodeQoi` — the `encodeQoi` function.
    The per-pixel loop is a fold over the pixels of the row range; every
    byte `push_back` of the loop body is modelled as an `Op` token whose
    `Op.bytes` are exactly the pushed bytes, so the emitted byte string is
    the concatenation of the token byte lists;
  * `planLoop`, `planChunks`, `mainOutput` — the chunk planning loop and
    the fan-out/joined-in-order output concatenation in `main`.
    `std::size_t` arithmetic wraps modulo `2 ^ 64`, which the planner can
    actually hit (`lines_first_pack = height - (threads - 1) * lines_per_pack`
    underflows when `height` is small), so that subtraction is modelled
    with the explicit wrap `wsub`;
  * `stoulModel`, `threadCount`, `mainResult` — the worker-count argument
    handling of `main` (`argc > 1 ? std::stoul(argv[1]) : hardware
    concurrency`), where `std::stoul` skips `isspace` characters and
    throws on input without digits (`std::invalid_argument`) or with a
    digit group beyond the unsigned 64-bit range (`std::out_of_range`).
    The footer test `end_y + 1 >= height` of `encodeQoi` is likewise
    `std::size_t` arithmetic: the sum wraps to 0 at `end_y = 2 ^ 64 - 1`.
-/

namespace Pam2qoi

/-- One RGBA pixel, `Image::Pixel`. The channels are `std::uint8_t` in the
source; they are modelled as `Nat` and every arithmetic step that relies on
8-bit wrapping performs it explicitly. -/
structure Pixel where
  r : Nat
  g : Nat
  b : Nat
  a : Nat
deriving DecidableEq

/-- A default-constructed `Image::Pixel`: the member initializers are
`r = 0`, `g = 0`, `b = 0`, `a = 255`. -/
def defaultPixel : Pixel := ⟨0, 0, 0, 255⟩

/-- The `Image` class: width, height and a row-major pixel vector. -/
structure Image where
  width : Nat
  height : Nat
  pixels : List Pixel
deriving DecidableEq

/-- `Image::getPixel`: in-bounds coordinates read `pixels_[width_ * y + x]`,
out-of-bounds coordinates return a default-constructed pixel (`return {};`). -/
def Image.getPixel (img : Image) (x y : Nat) : Pixel :=
  if x < img.width ∧ y < img.height then
    img.pixels.getD (img.width * y + x) defaultPixel
  else
    defaultPixel

/-- Conversion of an integer to `std::int8_t` (two's-complement wrap), used
for the `vr`, `vg`, `vb`, `vg_r`, `vg_b` deltas of `encodeQoi`. -/
def toInt8 (n : Int) : Int :=
  let m := n % 256
  if 128 ≤ m then m - 256 else m

/-- The index-table hash of `encodeQoi`:
`(pixel.r * 3 + pixel.g * 5 + pixel.b * 7 + pixel.a * 11) % 64`. -/
def pixelHash (p : Pixel) : Nat :=
  (p.r * 3 + p.g * 5 + p.b * 7 + p.a * 11) % 64

/-- The `is_within` lambda of `encodeQoi`. -/
def isWithin (value low high : Int) : Bool :=
  low ≤ value && value ≤ high

/-- One opcode emitted by the body of `encodeQoi`. Each constructor stands
for one group of `push_back` calls; the payloads are the bytes pushed
(computed at emission time, exactly as the source computes them). -/
inductive Op where
  | index (slot : Nat)
  | diff (byte : Nat)
  | luma (byte1 byte2 : Nat)
  | run (len : Nat)
  | longRun
  | rgb (r g b : Nat)
  | rgba (r g b a : Nat)
deriving DecidableEq

/-- The bytes pushed for one opcode, matching the `push_back` calls of
`encodeQoi` (tags `INDEX = 0x00`, `DIFF = 0x40`, `LUMA = 0x80`,
`RUN = 0xC0`, `LONG_RUN = 0xFD`, `RGB = 0xFE`, `RGBA = 0xFF`). -/
def Op.bytes : Op → List Nat
  | .index slot => [Nat.lor 0x00 slot]
  | .diff byte => [byte]
  | .luma byte1 byte2 => [byte1, byte2]
  | .run len => [Nat.lor 0xC0 (len - 1)]
  | .longRun => [0xFD]
  | .rgb r g b => [0xFE, r, g, b]
  | .rgba r g b a => [0xFF, r, g, b, a]

/-- Whether an opcode is a run opcode (`RUN` or `LONG_RUN`). -/
def Op.isRunOp : Op → Bool
  | .run _ => true
  | .longRun => true
  | _ => false

/-- Whether an opcode is a `DIFF` opcode. -/
def Op.isDiffOp : Op → Bool
  | .diff _ => true
  | _ => false

/-- Whether an opcode is an `RGB` opcode. -/
def Op.isRgbOp : Op → Bool
  | .rgb _ _ _ => true
  | _ => false

/-- Whether an opcode is an `RGBA` opcode. -/
def Op.isRgbaOp : Op → Bool
  | .rgba _ _ _ _ => true
  | _ => false

/-- The number of pixels covered by a run opcode (`LONG_RUN` covers 62),
zero for every other opcode. -/
def opRunLen : Op → Nat
  | .run n => n
  | .longRun => 62
  | _ => 0

/-- Total number of pixels covered by the run opcodes of a token list. -/
def runLengthSum (ops : List Op) : Nat :=
  (ops.map opRunLen).sum

/-- The loop-carried state of the `encodeQoi` body: the 64-slot
`std::array<std::optional<Image::Pixel>, 64> index`, the `previous_pixel`
register, the `run` counter, and the opcodes emitted so far. -/
structure EncState where
  index : List (Option Pixel)
  previous_pixel : Pixel
  run : Nat
  out : List Op
deriving DecidableEq

/-- One iteration of the per-pixel loop of `encodeQoi`, in the exact branch
order of the source: run detection (with the `LONG_RUN` flush at 62),
pending-run flush, index-table hit, index-table store, alpha change
(`RGBA`), small diff (`DIFF`), luma diff (`LUMA`), fallback (`RGB`). -/
def encodePixel (st : EncState) (pixel : Pixel) : EncState :=
  if pixel = st.previous_pixel then
    let run := st.run + 1
    if run = 62 then
      { st with run := 0, out := st.out ++ [Op.longRun] }
    else
      { st with run := run }
  else
    let out := if st.run ≠ 0 then st.out ++ [Op.run st.run] else st.out
    let hash := pixelHash pixel
    if st.index.getD hash none = some pixel then
      { st with out := out ++ [Op.index hash], previous_pixel := pixel, run := 0 }
    else
      let index := st.index.set hash (some pixel)
      if pixel.a ≠ st.previous_pixel.a then
        { index := index, previous_pixel := pixel, run := 0,
          out := out ++ [Op.rgba pixel.r pixel.g pixel.b pixel.a] }
      else
        let vr := toInt8 ((pixel.r : Int) - (st.previous_pixel.r : Int))
        let vg := toInt8 ((pixel.g : Int) - (st.previous_pixel.g : Int))
        let vb := toInt8 ((pixel.b : Int) - (st.previous_pixel.b : Int))
        if isWithin vr (-2) 1 && isWithin vg (-2) 1 && isWithin vb (-2) 1 then
          { index := index, previous_pixel := pixel, run := 0,
            out := out ++ [Op.diff (Nat.lor 0x40 (Nat.lor ((vr + 2).toNat <<< 4)
              (Nat.lor ((vg + 2).toNat <<< 2) (vb + 2).toNat)))] }
        else
          let vg_r := toInt8 (vr - vg)
          let vg_b := toInt8 (vb - vg)
          if isWithin vg_r (-8) 7 && isWithin vg (-32) 31 && isWithin vg_b (-8) 7 then
            { index := index, previous_pixel := pixel, run := 0,
              out := out ++ [Op.luma (Nat.lor 0x80 (vg + 32).toNat)
                (Nat.lor ((vg_r + 8).toNat <<< 4) (vg_b + 8).toNat)] }
          else
            { index := index, previous_pixel := pixel, run := 0,
              out := out ++ [Op.rgb pixel.r pixel.g pixel.b] }

/-- The pixels visited by the body loop of `encodeQoi` for the row range
`[start_y, end_y)`: rows `start_y ≤ y < min end_y height`, columns
`0 ≤ x < width`, in row-major order. -/
def chunkPixels (img : Image) (start_y end_y : Nat) : List Pixel :=
  (List.range' start_y (min end_y img.height - start_y)).flatMap
    (fun y => (List.range img.width).map (fun x => img.getPixel x y))

/-- The initial index table of one `encodeQoi` invocation: default
`std::optional` slots (all `nullopt`), filled with the pixel `{0, 0, 0, 0}`
when `start_y == 0`. -/
def initIndex (start_y : Nat) : List (Option Pixel) :=
  if start_y = 0 then List.replicate 64 (some ⟨0, 0, 0, 0⟩)
  else List.replicate 64 (none : Option Pixel)

/-- The initial codec state of one `encodeQoi` invocation with an explicit
initial `previous_pixel` register. -/
def initStateFrom (start_y : Nat) (p0 : Pixel) : EncState :=
  ⟨initIndex start_y, p0, 0, []⟩

/-- The initial codec state of one `encodeQoi` invocation:
`Image::Pixel previous_pixel;` is default-constructed. -/
def initState (start_y : Nat) : EncState :=
  initStateFrom start_y defaultPixel

/-- The opcodes of the body of one `encodeQoi` invocation, starting from an
explicit initial `previous_pixel` register: the per-pixel loop followed by
the final `if (run)` flush. -/
def chunkOpsFrom (p0 : Pixel) (img : Image) (start_y end_y : Nat) : List Op :=
  let st := (chunkPixels img start_y end_y).foldl encodePixel (initStateFrom start_y p0)
  st.out ++ (if st.run ≠ 0 then [Op.run st.run] else [])

/-- The opcodes of the body of one `encodeQoi` invocation. -/
def chunkOps (img : Image) (start_y end_y : Nat) : List Op :=
  let st := (chunkPixels img start_y end_y).foldl encodePixel (initState start_y)
  st.out ++ (if st.run ≠ 0 then [Op.run st.run] else [])

/-- The `encode_be` lambda of `encodeQoi`: big-endian bytes of a value
narrowed to `std::uint32_t`, each byte narrowed to 8 bits by `push_back`. -/
def encodeBE (value : Nat) : List Nat :=
  let v := value % 2 ^ 32
  [(v >>> 24) % 256, (v >>> 16) % 256, (v >>> 8) % 256, v % 256]

/-- The 14-byte QOI stream header emitted when `start_y == 0`: the magic
`"qoif"`, width and height big-endian, channel count 4, colorspace 0. -/
def qoiHeaderBytes (img : Image) : List Nat :=
  [113, 111, 105, 102] ++ encodeBE img.width ++ encodeBE img.height ++ [4, 0]

/-- The 8-byte QOI end-of-stream marker: seven zero bytes and a 1. -/
def qoiEndMarker : List Nat := [0, 0, 0, 0, 0, 0, 0, 1]

/-- The modulus of `std::size_t` arithmetic (64-bit). -/
def sizeTMod : Nat := 2 ^ 64

/-- Header and body bytes of one `encodeQoi` invocation (everything except
the conditional end marker). -/
def encodeQoiCore (img : Image) (start_y end_y : Nat) : List Nat :=
  (if start_y = 0 then qoiHeaderBytes img else []) ++
    (chunkOps img start_y end_y).flatMap Op.bytes

/-- The full byte string returned by one `encodeQoi(image, start_y, end_y)`
call: optional header, body, and the end marker exactly when
`end_y + 1 >= image.getHeight()`, where `end_y + 1` is computed in
`std::size_t` and therefore wraps to 0 at `end_y = 2 ^ 64 - 1` (the planner
really produces such bounds when its first-pack subtraction underflows). -/
def encodeQoi (img : Image) (start_y end_y : Nat) : List Nat :=
  encodeQoiCore img start_y end_y ++
    (if img.height ≤ (end_y + 1) % sizeTMod then qoiEndMarker else [])

/-- Wrapping `std::size_t` subtraction `a - b` (for `a < 2 ^ 64`). -/
def wsub (a b : Nat) : Nat :=
  (a + (sizeTMod - b % sizeTMod)) % sizeTMod

/-- The chunk-planning loop of `main`:
`for (start_y = 0, end_y = lines_first_pack; start_y < height;
start_y = end_y, end_y += lines_per_pack)`, one `(start_y, end_y)` pair per
submitted task. The loop is modelled with a fuel argument that bounds the
number of iterations; every statement proved below supplies enough fuel. -/
def planLoop (lpp H : Nat) : Nat → Nat → Nat → List (Nat × Nat)
  | 0, _, _ => []
  | fuel + 1, start_y, end_y =>
    if start_y < H then
      (start_y, end_y) :: planLoop lpp H fuel end_y ((end_y + lpp) % sizeTMod)
    else []

/-- The row ranges encoded by `main` for height `H` and worker count `T`:
a single full range when `T < 2`, otherwise the ranges of the planning loop
with `lines_per_pack = max(1, H / T)` and
`lines_first_pack = H - (T - 1) * lines_per_pack` (size_t arithmetic). -/
def planChunks (H T : Nat) : List (Nat × Nat) :=
  if T < 2 then [(0, H)]
  else
    let lpp := max 1 (H / T)
    let first := wsub H ((T - 1) * lpp % sizeTMod)
    planLoop lpp H (H + T + 2) 0 first

/-- The ranges whose encodings `main` writes, in order: the single serial
call when `threads < 2`, the planned chunks otherwise. -/
def plannedRanges (img : Image) (threads : Nat) : List (Nat × Nat) :=
  if threads < 2 then [(0, img.height)] else planChunks img.height threads

/-- The full byte stream written to standard output by `main`: the serial
`encodeQoi(image, 0, height)` when `threads < 2`, otherwise the chunk
results concatenated in submission (row) order. -/
def mainOutput (img : Image) (threads : Nat) : List Nat :=
  if threads < 2 then
    encodeQoi img 0 img.height
  else
    ((planChunks img.height threads).map (fun r => encodeQoi img r.1 r.2)).flatten

/-- Model of `std::stoul` on the argument characters: skip leading
whitespace (the six `isspace` characters of the C locale), accept an
optional sign, convert the leading digit group, fail with
`std::invalid_argument` when no digit is present and with
`std::out_of_range` when the digit group's value exceeds the unsigned
64-bit range; an in-range negated value wraps in unsigned arithmetic. -/
def stoulModel (s : List Char) : Except String Nat :=
  let cs := s.dropWhile (fun c =>
    c = ' ' || c = '\t' || c = '\n' || c = '\x0b' || c = '\x0c' || c = '\r')
  let signAndRest : Bool × List Char :=
    match cs with
    | '-' :: rest => (true, rest)
    | '+' :: rest => (false, rest)
    | _ => (false, cs)
  let ds := signAndRest.2.takeWhile (fun c => '0' ≤ c && c ≤ '9')
  if ds.isEmpty then
    Except.error "invalid argument"
  else
    let v := ds.foldl (fun acc c => acc * 10 + (c.toNat - 48)) 0
    if sizeTMod ≤ v then
      Except.error "out of range"
    else
      Except.ok (if signAndRest.1 then (sizeTMod - v) % sizeTMod else v)

/-- The worker count of `main`:
`argc > 1 ? std::stoul(argv[1]) : std::thread::hardware_concurrency()`,
narrowed to `unsigned int`; an exception from `std::stoul` propagates. -/
def threadCount (arg : Option (List Char)) (hardwareConcurrency : Nat) :
    Except String Nat :=
  match arg with
  | none => Except.ok hardwareConcurrency
  | some s =>
    match stoulModel s with
    | Except.error e => Except.error e
    | Except.ok v => Except.ok (v % 2 ^ 32)

/-- The observable result of `main` on an already-read image: the worker
count is computed first (its exception aborts the program), an empty image
is rejected, and otherwise the encoded stream is written. -/
def mainResult (arg : Option (List Char)) (hardwareConcurrency : Nat)
    (img : Image) : Except String (List Nat) :=
  match threadCount arg hardwareConcurrency with
  | Except.error e => Except.error e
  | Except.ok t =>
    if 0 < img.width ∧ 0 < img.height then Except.ok (mainOutput img t)
    else Except.error "Empty input image."

/-- Boundedness of the channels of one pixel, the invariant every pixel of
a structurally valid image satisfies (channels are `std::uint8_t`). -/
def pixelBounded (p : Pixel) : Prop :=
  p.r < 256 ∧ p.g < 256 ∧ p.b < 256 ∧ p.a < 256

/-- The tag-byte discipline of one emitted opcode: run lengths lie in
`[1, 61]`, index slots below 64, `DIFF` first bytes in `[0x40, 0x7F]`,
`LUMA` first bytes in `[0x80, 0xBF]` with a second byte below 256. -/
def Op.tagOk : Op → Prop
  | .run n => 1 ≤ n ∧ n ≤ 61
  | .index slot => slot < 64
  | .diff byte => 0x40 ≤ byte ∧ byte ≤ 0x7F
  | .luma byte1 byte2 => 0x80 ≤ byte1 ∧ byte1 ≤ 0xBF ∧ byte2 < 256
  | .longRun => True
  | .rgb _ _ _ => True
  | .rgba _ _ _ _ => True

/-- Boundedness of the verbatim channel payloads of `RGB`/`RGBA` opcodes. -/
def Op.payloadOk : Op → Prop
  | .rgb r g b => r < 256 ∧ g < 256 ∧ b < 256
  | .rgba r g b a => r < 256 ∧ g < 256 ∧ b < 256 ∧ a < 256
  | _ => True

/-- The successive ranges `(s + i * lpp, s + (i + 1) * lpp)` for `i < k`:
the closed form of the planning loop after its first range. -/
def chunksFrom (s lpp : Nat) : Nat → List (Nat × Nat)
  | 0 => []
  | k + 1 => (s, s + lpp) :: chunksFrom (s + lpp) lpp k

/-- The number of positions of `l` at which `pat` occurs as a contiguous
sub-list. -/
def countOcc (pat l : List Nat) : Nat :=
  ((List.range (l.length + 1)).filter (fun i => pat.isPrefixOf (l.drop i))).length

/-- A 1-by-1 image holding one default pixel. -/
def img1x1 : Image := ⟨1, 1, [defaultPixel]⟩

/-- A 1-by-2 image holding two default pixels. -/
def img1x2 : Image := ⟨1, 2, [defaultPixel, defaultPixel]⟩

/-- A 1-by-3 image holding three default pixels. -/
def img1x3 : Image := ⟨1, 3, [defaultPixel, defaultPixel, defaultPixel]⟩

/-- A 1-by-4 image holding four default pixels. -/
def img1x4 : Image := ⟨1, 4, [defaultPixel, defaultPixel, defaultPixel, defaultPixel]⟩

/-- The 2-by-1 image of the round-trip scenario: both pixels
`(255, 0, 0, 255)`. -/
def img2x1red : Image := ⟨2, 1, [⟨255, 0, 0, 255⟩, ⟨255, 0, 0, 255⟩]⟩

/-- A 2-by-1 image whose adjacent pixels differ by the deltas
`(vr, vg, vb) = (1, -1, 0)` with unchanged alpha, and whose second pixel
hits the prefilled index table. -/
def img2x1hit : Image := ⟨2, 1, [⟨255, 1, 0, 0⟩, ⟨0, 0, 0, 0⟩]⟩

/-- A 200-by-1 image holding one pixel value repeated 200 times. -/
def img200 (p : Pixel) : Image := ⟨200, 1, List.replicate 200 p⟩

end Pam2qoi

namespace Pam2qoi

theorem lor64_eq : ∀ x : Nat, x < 64 → Nat.lor 64 x = 64 + x := by decide

theorem lor128_eq : ∀ x : Nat, x < 64 → Nat.lor 128 x = 128 + x := by decide

theorem lor192_eq : ∀ x : Nat, x < 64 → Nat.lor 192 x = 192 + x := by decide

theorem diffByte_bounds : ∀ a : Nat, a ≤ 3 → ∀ b : Nat, b ≤ 3 → ∀ c : Nat, c ≤ 3 →
    64 ≤ Nat.lor 64 (Nat.lor (a <<< 4) (Nat.lor (b <<< 2) c)) ∧
      Nat.lor 64 (Nat.lor (a <<< 4) (Nat.lor (b <<< 2) c)) ≤ 127 := by decide

theorem lumaByte1_bounds : ∀ v : Nat, v ≤ 63 →
    128 ≤ Nat.lor 128 v ∧ Nat.lor 128 v ≤ 191 := by decide

theorem lumaByte2_lt : ∀ a : Nat, a ≤ 15 → ∀ b : Nat, b ≤ 15 →
    Nat.lor (a <<< 4) b < 256 := by decide

theorem isWithin_iff (v lo hi : Int) : isWithin v lo hi = true ↔ lo ≤ v ∧ v ≤ hi := by
  simp [isWithin]

theorem pixelHash_lt (p : Pixel) : pixelHash p < 64 :=
  Nat.mod_lt _ (by norm_num)

theorem encodePixel_run_le (st : EncState) (p : Pixel) (h : st.run ≤ 61) :
    (encodePixel st p).run ≤ 61 := by
  simp only [encodePixel]
  split
  · split
    · simp
    · rename_i h2
      simp only
      omega
  · split
    · simp
    · split
      · simp
      · split
        · simp
        · split
          · simp
          · simp

end Pam2qoi

namespace Pam2qoi

theorem encodePixel_out_tagOk (st : EncState) (p : Pixel) (hrun : st.run ≤ 61)
    (hout : ∀ op ∈ st.out, op.tagOk) :
    ∀ op ∈ (encodePixel st p).out, op.tagOk := by
  have hflush : ∀ op ∈ (if st.run ≠ 0 then st.out ++ [Op.run st.run] else st.out),
      op.tagOk := by
    split
    · rename_i hne
      intro op hop
      rcases List.mem_append.1 hop with h | h
      · exact hout op h
      · simp only [List.mem_singleton] at h
        subst h
        exact ⟨by omega, hrun⟩
    · exact hout
  simp only [encodePixel]
  split
  · split
    · intro op hop
      simp only at hop
      rcases List.mem_append.1 hop with h | h
      · exact hout op h
      · simp only [List.mem_singleton] at h
        subst h
        trivial
    · simpa using hout
  · split
    · intro op hop
      simp only at hop
      rcases List.mem_append.1 hop with h | h
      · exact hflush op h
      · simp only [List.mem_singleton] at h
        subst h
        exact pixelHash_lt p
    · split
      · intro op hop
        simp only at hop
        rcases List.mem_append.1 hop with h | h
        · exact hflush op h
        · simp only [List.mem_singleton] at h
          subst h
          trivial
      · split
        · rename_i hcond
          rw [Bool.and_eq_true, Bool.and_eq_true] at hcond
          obtain ⟨⟨h1, h2⟩, h3⟩ := hcond
          rw [isWithin_iff] at h1 h2 h3
          intro op hop
          simp only at hop
          rcases List.mem_append.1 hop with h | h
          · exact hflush op h
          · simp only [List.mem_singleton] at h
            subst h
            exact diffByte_bounds _ (by omega) _ (by omega) _ (by omega)
        · split
          · rename_i hcond2
            rw [Bool.and_eq_true, Bool.and_eq_true] at hcond2
            obtain ⟨⟨h4, h5⟩, h6⟩ := hcond2
            rw [isWithin_iff] at h4 h5 h6
            intro op hop
            simp only at hop
            rcases List.mem_append.1 hop with h | h
            · exact hflush op h
            · simp only [List.mem_singleton] at h
              subst h
              refine ⟨(lumaByte1_bounds _ (by omega)).1, (lumaByte1_bounds _ (by omega)).2,
                lumaByte2_lt _ (by omega) _ (by omega)⟩
          · intro op hop
            simp only at hop
            rcases List.mem_append.1 hop with h | h
            · exact hflush op h
            · simp only [List.mem_singleton] at h
              subst h
              trivial

theorem foldl_tagOk (ps : List Pixel) (st : EncState) (hrun : st.run ≤ 61)
    (hout : ∀ op ∈ st.out, op.tagOk) :
    (ps.foldl encodePixel st).run ≤ 61 ∧
      ∀ op ∈ (ps.foldl encodePixel st).out, op.tagOk := by
  induction ps generalizing st with
  | nil => exact ⟨hrun, hout⟩
  | cons p ps ih =>
    simp only [List.foldl_cons]
    exact ih _ (encodePixel_run_le st p hrun) (encodePixel_out_tagOk st p hrun hout)

theorem chunkOps_tagOk (img : Image) (s e : Nat) :
    ∀ op ∈ chunkOps img s e, op.tagOk := by
  obtain ⟨h1, h2⟩ := foldl_tagOk (chunkPixels img s e) (initState s)
    (by simp [initState, initStateFrom]) (by simp [initState, initStateFrom])
  intro op hop
  simp only [chunkOps] at hop
  rcases List.mem_append.1 hop with h | h
  · exact h2 op h
  · by_cases hr0 : ((chunkPixels img s e).foldl encodePixel (initState s)).run ≠ 0
    · rw [if_pos hr0] at h
      simp only [List.mem_singleton] at h
      subst h
      exact ⟨by omega, h1⟩
    · rw [if_neg hr0] at h
      simp at h

end Pam2qoi

namespace Pam2qoi

theorem encodePixel_out_payloadOk (st : EncState) (p : Pixel) (hp : pixelBounded p)
    (hout : ∀ op ∈ st.out, op.payloadOk) :
    ∀ op ∈ (encodePixel st p).out, op.payloadOk := by
  obtain ⟨hr, hg, hb, ha⟩ := hp
  have hflush : ∀ op ∈ (if st.run ≠ 0 then st.out ++ [Op.run st.run] else st.out),
      op.payloadOk := by
    split
    · intro op hop
      rcases List.mem_append.1 hop with h | h
      · exact hout op h
      · simp only [List.mem_singleton] at h
        subst h
        trivial
    · exact hout
  simp only [encodePixel]
  split
  · split
    · intro op hop
      simp only at hop
      rcases List.mem_append.1 hop with h | h
      · exact hout op h
      · simp only [List.mem_singleton] at h
        subst h
        trivial
    · simpa using hout
  · split
    · intro op hop
      simp only at hop
      rcases List.mem_append.1 hop with h | h
      · exact hflush op h
      · simp only [List.mem_singleton] at h
        subst h
        trivial
    · split
      · intro op hop
        simp only at hop
        rcases List.mem_append.1 hop with h | h
        · exact hflush op h
        · simp only [List.mem_singleton] at h
          subst h
          exact ⟨hr, hg, hb, ha⟩
      · split
        · intro op hop
          simp only at hop
          rcases List.mem_append.1 hop with h | h
          · exact hflush op h
          · simp only [List.mem_singleton] at h
            subst h
            trivial
        · split
          · intro op hop
            simp only at hop
            rcases List.mem_append.1 hop with h | h
            · exact hflush op h
            · simp only [List.mem_singleton] at h
              subst h
              trivial
          · intro op hop
            simp only at hop
            rcases List.mem_append.1 hop with h | h
            · exact hflush op h
            · simp only [List.mem_singleton] at h
              subst h
              exact ⟨hr, hg, hb⟩

theorem foldl_payloadOk (ps : List Pixel) (st : EncState)
    (hp : ∀ p ∈ ps, pixelBounded p) (hout : ∀ op ∈ st.out, op.payloadOk) :
    ∀ op ∈ (ps.foldl encodePixel st).out, op.payloadOk := by
  induction ps generalizing st with
  | nil => exact hout
  | cons p ps ih =>
    simp only [List.foldl_cons]
    exact ih _ (fun q hq => hp q (List.mem_cons_of_mem p hq))
      (encodePixel_out_payloadOk st p (hp p (List.mem_cons_self p ps)) hout)

theorem defaultPixel_bounded : pixelBounded defaultPixel := by
  refine ⟨?_, ?_, ?_, ?_⟩ <;> norm_num [defaultPixel]

theorem getPixel_bounded (img : Image) (hv : ∀ p ∈ img.pixels, pixelBounded p)
    (x y : Nat) : pixelBounded (img.getPixel x y) := by
  unfold Image.getPixel
  split
  · rcases Nat.lt_or_ge (img.width * y + x) img.pixels.length with h | h
    · have : img.pixels.getD (img.width * y + x) defaultPixel =
          img.pixels[img.width * y + x] := by
        simp [List.getD_eq_getElem?_getD, List.getElem?_eq_getElem h]
      rw [this]
      exact hv _ (List.getElem_mem h)
    · rw [List.getD_eq_default _ _ h]
      exact defaultPixel_bounded
  · exact defaultPixel_bounded

theorem chunkPixels_bounded (img : Image) (hv : ∀ p ∈ img.pixels, pixelBounded p)
    (s e : Nat) : ∀ q ∈ chunkPixels img s e, pixelBounded q := by
  intro q hq
  simp only [chunkPixels] at hq
  rw [List.mem_flatMap] at hq
  obtain ⟨y, _, hy⟩ := hq
  rw [List.mem_map] at hy
  obtain ⟨x, _, rfl⟩ := hy
  exact getPixel_bounded img hv x y

theorem chunkOps_payloadOk (img : Image) (hv : ∀ p ∈ img.pixels, pixelBounded p)
    (s e : Nat) : ∀ op ∈ chunkOps img s e, op.payloadOk := by
  have h2 := foldl_payloadOk (chunkPixels img s e) (initState s)
    (chunkPixels_bounded img hv s e) (by simp [initState, initStateFrom])
  intro op hop
  simp only [chunkOps] at hop
  rcases List.mem_append.1 hop with h | h
  · exact h2 op h
  · by_cases hr0 : ((chunkPixels img s e).foldl encodePixel (initState s)).run ≠ 0
    · rw [if_pos hr0] at h
      simp only [List.mem_singleton] at h
      subst h
      trivial
    · rw [if_neg hr0] at h
      simp at h

theorem Op.bytes_lt256 (op : Op) (h1 : op.tagOk) (h2 : op.payloadOk) :
    ∀ b ∈ op.bytes, b < 256 := by
  cases op with
  | index slot =>
    simp only [Op.tagOk] at h1
    intro b hb
    simp only [Op.bytes, List.mem_singleton] at hb
    subst hb
    have h0 : Nat.lor 0 slot = slot := Nat.zero_or slot
    rw [h0]
    omega
  | diff byte =>
    simp only [Op.tagOk] at h1
    simp only [Op.bytes, List.mem_singleton]
    omega
  | luma byte1 byte2 =>
    obtain ⟨ha, hb, hc⟩ := h1
    intro b hb2
    simp only [Op.bytes, List.mem_cons, List.mem_singleton] at hb2
    rcases hb2 with rfl | rfl | h
    · omega
    · omega
    · simp at h
  | run len =>
    obtain ⟨ha, hb⟩ := h1
    simp only [Op.bytes, List.mem_singleton]
    intro b hb2
    subst hb2
    rw [lor192_eq (len - 1) (by omega)]
    omega
  | longRun =>
    simp only [Op.bytes, List.mem_singleton]
    omega
  | rgb r g b =>
    obtain ⟨ha, hb, hc⟩ := h2
    intro x hx
    simp only [Op.bytes, List.mem_cons, List.mem_singleton] at hx
    rcases hx with rfl | rfl | rfl | rfl | h
    · omega
    · omega
    · omega
    · omega
    · simp at h
  | rgba r g b a =>
    obtain ⟨ha, hb, hc, hd⟩ := h2
    intro x hx
    simp only [Op.bytes, List.mem_cons, List.mem_singleton] at hx
    rcases hx with rfl | rfl | rfl | rfl | rfl | h
    · omega
    · omega
    · omega
    · omega
    · omega
    · simp at h

theorem encodeBE_lt256 (v : Nat) : ∀ b ∈ encodeBE v, b < 256 := by
  intro b hb
  simp only [encodeBE, List.mem_cons, List.mem_singleton] at hb
  rcases hb with rfl | rfl | rfl | rfl | h
  · exact Nat.mod_lt _ (by norm_num)
  · exact Nat.mod_lt _ (by norm_num)
  · exact Nat.mod_lt _ (by norm_num)
  · exact Nat.mod_lt _ (by norm_num)
  · simp at h

theorem qoiHeaderBytes_lt256 (img : Image) : ∀ b ∈ qoiHeaderBytes img, b < 256 := by
  intro b hb
  simp only [qoiHeaderBytes, List.append_assoc, List.mem_append, List.mem_cons,
    List.mem_singleton] at hb
  rcases hb with (rfl | rfl | rfl | rfl | h) | h | h | h
  · omega
  · omega
  · omega
  · omega
  · simp at h
  · exact encodeBE_lt256 _ b h
  · exact encodeBE_lt256 _ b h
  · rcases h with rfl | rfl | h
    · omega
    · omega
    · simp at h

theorem encodeQoi_bytes_lt256 (img : Image) (hv : ∀ p ∈ img.pixels, pixelBounded p)
    (s e : Nat) : ∀ b ∈ encodeQoi img s e, b < 256 := by
  intro b hb
  simp only [encodeQoi, encodeQoiCore, List.append_assoc, List.mem_append] at hb
  rcases hb with h | h | h
  · by_cases hs : s = 0
    · rw [if_pos hs] at h
      exact qoiHeaderBytes_lt256 img b h
    · rw [if_neg hs] at h
      simp at h
  · rw [List.mem_flatMap] at h
    obtain ⟨op, hop, hbop⟩ := h
    exact Op.bytes_lt256 op (chunkOps_tagOk img s e op hop)
      (chunkOps_payloadOk img hv s e op hop) b hbop
  · by_cases hf : img.height ≤ (e + 1) % sizeTMod
    · rw [if_pos hf] at h
      simp only [qoiEndMarker, List.mem_cons, List.mem_singleton] at h
      rcases h with rfl | rfl | rfl | rfl | rfl | rfl | rfl | rfl | h
      all_goals first | omega | simp at h
    · rw [if_neg hf] at h
      simp at h

end Pam2qoi

namespace Pam2qoi

theorem foldl_replicate_same (p : Pixel) : ∀ (k : Nat) (idx : List (Option Pixel))
    (rn : Nat) (oo : List Op), rn < 62 →
    (List.replicate k p).foldl encodePixel ⟨idx, p, rn, oo⟩ =
      ⟨idx, p, (rn + k) % 62, oo ++ List.replicate ((rn + k) / 62) Op.longRun⟩ := by
  intro k
  induction k with
  | zero =>
    intro idx rn oo hrun
    simp [Nat.mod_eq_of_lt hrun, Nat.div_eq_of_lt hrun]
  | succ k ih =>
    intro idx rn oo hrun
    rw [List.replicate_succ, List.foldl_cons]
    have hstep : encodePixel ⟨idx, p, rn, oo⟩ p =
        (if rn + 1 = 62 then ⟨idx, p, 0, oo ++ [Op.longRun]⟩
          else ⟨idx, p, rn + 1, oo⟩ : EncState) := by
      simp [encodePixel]
    rw [hstep]
    by_cases h62 : rn + 1 = 62
    · rw [if_pos h62]
      rw [ih idx 0 (oo ++ [Op.longRun]) (by norm_num)]
      have e1 : (0 + k) % 62 = (rn + (k + 1)) % 62 := by omega
      have e2 : (rn + (k + 1)) / 62 = (0 + k) / 62 + 1 := by omega
      rw [e1, e2, List.append_assoc]
      have e3 : [Op.longRun] ++ List.replicate ((0 + k) / 62) Op.longRun =
          List.replicate ((0 + k) / 62 + 1) Op.longRun := by
        rw [List.replicate_succ]
        rfl
      rw [e3]
    · rw [if_neg h62]
      rw [ih idx (rn + 1) oo (by omega)]
      have e1 : rn + 1 + k = rn + (k + 1) := by omega
      rw [e1]

theorem encodePixel_fresh (idx : List (Option Pixel)) (pp p : Pixel) (oo : List Op)
    (hne : p ≠ pp) :
    ∃ t newIdx, encodePixel ⟨idx, pp, 0, oo⟩ p = ⟨newIdx, p, 0, oo ++ [t]⟩ ∧
      t.isRunOp = false := by
  simp only [encodePixel]
  rw [if_neg hne]
  simp only [ne_eq, not_true_eq_false, if_false, Nat.zero_lt_succ]
  by_cases hhit : idx.getD (pixelHash p) none = some p
  · rw [if_pos hhit]
    exact ⟨Op.index (pixelHash p), idx, by simp, rfl⟩
  · rw [if_neg hhit]
    by_cases halpha : p.a ≠ pp.a
    · rw [if_pos halpha]
      exact ⟨Op.rgba p.r p.g p.b p.a, idx.set (pixelHash p) (some p), by simp, rfl⟩
    · rw [if_neg halpha]
      by_cases hdiff : (isWithin (toInt8 ((p.r : Int) - (pp.r : Int))) (-2) 1 &&
          isWithin (toInt8 ((p.g : Int) - (pp.g : Int))) (-2) 1 &&
          isWithin (toInt8 ((p.b : Int) - (pp.b : Int))) (-2) 1) = true
      · rw [if_pos hdiff]
        exact ⟨_, _, rfl, rfl⟩
      · rw [if_neg hdiff]
        by_cases hluma : (isWithin (toInt8 (toInt8 ((p.r : Int) - (pp.r : Int)) -
            toInt8 ((p.g : Int) - (pp.g : Int)))) (-8) 7 &&
            isWithin (toInt8 ((p.g : Int) - (pp.g : Int))) (-32) 31 &&
            isWithin (toInt8 (toInt8 ((p.b : Int) - (pp.b : Int)) -
            toInt8 ((p.g : Int) - (pp.g : Int)))) (-8) 7) = true
        · rw [if_pos hluma]
          exact ⟨_, _, rfl, rfl⟩
        · rw [if_neg hluma]
          exact ⟨Op.rgb p.r p.g p.b, idx.set (pixelHash p) (some p), by simp, rfl⟩

theorem opRunLen_eq_zero (t : Op) (h : t.isRunOp = false) : opRunLen t = 0 := by
  cases t <;> simp_all [Op.isRunOp, opRunLen]

theorem planLoop_stop (lpp H fuel start e : Nat) (h : H ≤ start) :
    planLoop lpp H fuel start e = [] := by
  cases fuel with
  | zero => rfl
  | succ f => simp [planLoop, Nat.not_lt.2 h]

theorem planLoop_eq (lpp H : Nat) (hl : 1 ≤ lpp) (hM : H < sizeTMod) :
    ∀ (k fuel start e : Nat), start < H → e + k * lpp = H → k + 1 ≤ fuel →
    planLoop lpp H fuel start e = (start, e) :: chunksFrom e lpp k := by
  intro k
  induction k with
  | zero =>
    intro fuel start e hstart he hfuel
    rw [Nat.zero_mul, Nat.add_zero] at he
    subst he
    obtain ⟨f, rfl⟩ : ∃ f, fuel = f + 1 := ⟨fuel - 1, by omega⟩
    simp only [planLoop, if_pos hstart]
    rw [planLoop_stop _ _ _ _ _ (le_refl e)]
    rfl
  | succ k ih =>
    intro fuel start e hstart he hfuel
    obtain ⟨f, rfl⟩ : ∃ f, fuel = f + 1 := ⟨fuel - 1, by omega⟩
    have hmul : (k + 1) * lpp = k * lpp + lpp := by ring
    have he2 : e + lpp ≤ H := by omega
    have heH : e < H := by
      have h1 : 0 < (k + 1) * lpp := Nat.mul_pos (by omega) (by omega)
      omega
    simp only [planLoop, if_pos hstart]
    rw [Nat.mod_eq_of_lt (show e + lpp < sizeTMod by omega)]
    rw [ih f e (e + lpp) heH (by omega) (by omega)]
    rfl

theorem wsub_eq (a b : Nat) (hb : b ≤ a) (ha : a < sizeTMod) : wsub a b = a - b := by
  unfold wsub sizeTMod
  have haM : a < 2 ^ 64 := ha
  rw [Nat.mod_eq_of_lt (show b < 2 ^ 64 by omega)]
  have h3 : a + (2 ^ 64 - b) = (a - b) + 2 ^ 64 := by omega
  rw [h3, Nat.add_mod_right, Nat.mod_eq_of_lt (by omega)]

theorem planChunks_closed (H T : Nat) (h2 : 2 ≤ T) (hTH : T ≤ H) (hM : H < sizeTMod) :
    planChunks H T =
      (0, H - (T - 1) * (H / T)) ::
        chunksFrom (H - (T - 1) * (H / T)) (H / T) (T - 1) := by
  have hlpp1 : 1 ≤ H / T := (Nat.one_le_div_iff (by omega)).2 hTH
  have hmax : max 1 (H / T) = H / T := Nat.max_eq_right hlpp1
  have hmul : (T - 1) * (H / T) + H / T = T * (H / T) := by
    have hT : T - 1 + 1 = T := by omega
    calc (T - 1) * (H / T) + H / T = (T - 1 + 1) * (H / T) := (Nat.succ_mul _ _).symm
    _ = T * (H / T) := by rw [hT]
  have hTlpp : T * (H / T) ≤ H := by
    rw [Nat.mul_comm]
    exact Nat.div_mul_le_self H T
  have hle : (T - 1) * (H / T) ≤ H := by omega
  simp only [planChunks]
  rw [if_neg (by omega : ¬ T < 2), hmax]
  rw [Nat.mod_eq_of_lt (lt_of_le_of_lt hle hM)]
  rw [wsub_eq H _ hle hM]
  exact planLoop_eq (H / T) H hlpp1 hM (T - 1) (H + T + 2) 0
    (H - (T - 1) * (H / T)) (by omega) (Nat.sub_add_cancel hle) (by omega)

end Pam2qoi

namespace Pam2qoi

theorem chunksFrom_fst_ge (lpp : Nat) : ∀ (k s : Nat) (r : Nat × Nat),
    r ∈ chunksFrom s lpp k → s ≤ r.1 := by
  intro k
  induction k with
  | zero =>
    intro s r h
    simp [chunksFrom] at h
  | succ k ih =>
    intro s r h
    simp only [chunksFrom, List.mem_cons] at h
    rcases h with rfl | h
    · exact le_refl s
    · exact le_trans (Nat.le_add_right s lpp) (ih (s + lpp) r h)

theorem chunksFrom_footer_filter (lpp H : Nat) (hlpp : 2 ≤ lpp) :
    ∀ (k s : Nat), s + (k + 1) * lpp = H →
    ((chunksFrom s lpp (k + 1)).filter (fun r => decide (H ≤ r.2 + 1))).length = 1 := by
  intro k
  induction k with
  | zero =>
    intro s hsum
    rw [Nat.one_mul] at hsum
    have hone : chunksFrom s lpp 1 = [(s, s + lpp)] := rfl
    have hcond : H ≤ s + lpp + 1 := by omega
    rw [hone]
    simp [List.filter_cons, hcond]
  | succ k ih =>
    intro s hsum
    have hmul : (k + 1 + 1) * lpp = (k + 1) * lpp + lpp := by ring
    have hge : lpp ≤ (k + 1) * lpp := Nat.le_mul_of_pos_left lpp (by omega)
    have hcond : ¬ (H ≤ s + lpp + 1) := by omega
    have hstep : chunksFrom s lpp (k + 1 + 1) =
        (s, s + lpp) :: chunksFrom (s + lpp) lpp (k + 1) := rfl
    rw [hstep]
    simp only [List.filter_cons, Prod.snd, decide_eq_true_eq, if_neg hcond]
    exact ih (s + lpp) (by omega)

theorem chunksFrom_footer_mem (lpp H : Nat) (hlpp : 2 ≤ lpp) :
    ∀ (k s : Nat) (r : Nat × Nat), s + (k + 1) * lpp = H →
    r ∈ chunksFrom s lpp (k + 1) → H ≤ r.2 + 1 → r = (H - lpp, H) := by
  intro k
  induction k with
  | zero =>
    intro s r hsum hmem hr
    rw [Nat.one_mul] at hsum
    have hone : chunksFrom s lpp 1 = [(s, s + lpp)] := rfl
    rw [hone, List.mem_singleton] at hmem
    subst hmem
    simp only [Prod.mk.injEq]
    omega
  | succ k ih =>
    intro s r hsum hmem hr
    have hmul : (k + 1 + 1) * lpp = (k + 1) * lpp + lpp := by ring
    have hge : lpp ≤ (k + 1) * lpp := Nat.le_mul_of_pos_left lpp (by omega)
    have hstep : chunksFrom s lpp (k + 1 + 1) =
        (s, s + lpp) :: chunksFrom (s + lpp) lpp (k + 1) := rfl
    rw [hstep, List.mem_cons] at hmem
    rcases hmem with rfl | hmem
    · exfalso
      simp only at hr
      omega
    · exact ih (s + lpp) r (by omega) hmem hr

theorem flatten_chunksFrom (img : Image) (lpp : Nat) (hlpp : 2 ≤ lpp)
    (hM1 : img.height + 1 < sizeTMod) :
    ∀ (k s : Nat), 1 ≤ s → s + (k + 1) * lpp = img.height →
    ∃ mid, ((chunksFrom s lpp (k + 1)).map
        (fun r => encodeQoi img r.1 r.2)).flatten = mid ++ qoiEndMarker := by
  intro k
  induction k with
  | zero =>
    intro s hs1 hsum
    rw [Nat.one_mul] at hsum
    refine ⟨encodeQoiCore img s (s + lpp), ?_⟩
    have hone : chunksFrom s lpp 1 = [(s, s + lpp)] := rfl
    rw [hone]
    simp only [List.map_cons, List.map_nil, List.flatten_cons, List.flatten_nil,
      List.append_nil]
    have hlt : s + lpp + 1 < sizeTMod := by omega
    rw [encodeQoi, if_pos (by rw [Nat.mod_eq_of_lt hlt]; omega)]
  | succ k ih =>
    intro s hs1 hsum
    have hmul : (k + 1 + 1) * lpp = (k + 1) * lpp + lpp := by ring
    have hge : lpp ≤ (k + 1) * lpp := Nat.le_mul_of_pos_left lpp (by omega)
    obtain ⟨mid2, hmid2⟩ := ih (s + lpp) (by omega) (by omega)
    refine ⟨encodeQoiCore img s (s + lpp) ++ mid2, ?_⟩
    have hstep : chunksFrom s lpp (k + 1 + 1) =
        (s, s + lpp) :: chunksFrom (s + lpp) lpp (k + 1) := rfl
    rw [hstep]
    simp only [List.map_cons, List.flatten_cons]
    rw [hmid2]
    have hlt : s + lpp + 1 < sizeTMod := by omega
    have hnof : ¬ (img.height ≤ (s + lpp + 1) % sizeTMod) := by
      rw [Nat.mod_eq_of_lt hlt]
      omega
    rw [encodeQoi, if_neg hnof, List.append_nil, List.append_assoc]

end Pam2qoi

namespace Pam2qoi

theorem chunkPixels_img200 (p : Pixel) :
    chunkPixels (img200 p) 0 1 = List.replicate 200 p := by
  have hrange : List.range' 0 (min 1 (img200 p).height - 0) = [0] := rfl
  simp only [chunkPixels, hrange, List.flatMap_cons, List.flatMap_nil, List.append_nil]
  rw [List.eq_replicate_iff]
  constructor
  · rw [List.length_map, List.length_range]
    rfl
  · intro b hb
    rw [List.mem_map] at hb
    obtain ⟨x, hx, rfl⟩ := hb
    rw [List.mem_range] at hx
    have hw : (img200 p).width = 200 := rfl
    rw [hw] at hx
    rw [Image.getPixel, if_pos ⟨by rw [hw]; exact hx, by norm_num [img200]⟩]
    show (List.replicate 200 p).getD (200 * 0 + x) defaultPixel = p
    simp only [Nat.mul_zero, Nat.zero_add]
    have hgen : ∀ (n i : Nat) (a : Pixel), i < n →
        (List.replicate n a).getD i defaultPixel = a := by
      intro n i a h
      simp [List.getD_eq_getElem?_getD, List.getElem?_replicate, h]
    exact hgen 200 x p hx

theorem chunkOps_img200_fresh (p : Pixel) (hne : p ≠ defaultPixel) :
    ∃ t, t.isRunOp = false ∧
      chunkOps (img200 p) 0 1 =
        t :: [Op.longRun, Op.longRun, Op.longRun, Op.run 13] := by
  obtain ⟨t, newIdx, hstep, ht⟩ := encodePixel_fresh (initIndex 0) defaultPixel p [] hne
  refine ⟨t, ht, ?_⟩
  simp only [chunkOps]
  rw [chunkPixels_img200]
  rw [show (200 : Nat) = 199 + 1 from rfl, List.replicate_succ, List.foldl_cons]
  rw [show initState 0 = ⟨initIndex 0, defaultPixel, 0, []⟩ from rfl]
  rw [hstep]
  rw [foldl_replicate_same p 199 newIdx 0 ([] ++ [t]) (by norm_num)]
  norm_num
  rfl

end Pam2qoi

namespace Pam2qoi

/-- C2: evaluation of the chunk planner at the failing input `H = 1`,
`T = 2`: `lines_per_pack = max(1, 1 / 2) = 1` and
`lines_first_pack = 1 - 1 = 0`, so the loop emits the zero-length range
`[0, 0)` and then `[0, 1)`, violating the claim that every range has
length at least 1; the encoded output then carries the stream header (and
the end marker) twice. -/
theorem C2_planner_failing :
    planChunks 1 2 = [(0, 0), (0, 1)] ∧
    mainOutput img1x1 2 =
      qoiHeaderBytes img1x1 ++ qoiEndMarker ++
        (qoiHeaderBytes img1x1 ++ ([0xC0] ++ qoiEndMarker)) := by decide

/-- C3 (amended): the previous-pixel register of every chunk encoder
invocation is initialized to the default pixel `(0, 0, 0, 255)` — not
`(0, 0, 0, 0)` — regardless of `start_y`: the body opcodes equal those of
the parameterized encoder started at `(0, 0, 0, 255)`. -/
theorem C3_prev_init (img : Image) (s e : Nat) :
    chunkOps img s e = chunkOpsFrom ⟨0, 0, 0, 255⟩ img s e := rfl

/-- C3 counterexample: on the 1-by-2 default-pixel image, the chunk
`[1, 2)` (fresh state, no header) encodes its single pixel
`(0, 0, 0, 255)` as a run of length 1, whereas an encoder whose
previous-pixel register started at `(0, 0, 0, 0)` would emit an RGBA
opcode; so the register is not initialized to `(0, 0, 0, 0)`. -/
theorem C3_counterexample :
    chunkOps img1x2 1 2 = [Op.run 1] ∧
    chunkOpsFrom ⟨0, 0, 0, 0⟩ img1x2 1 2 = [Op.rgba 0 0 0 255] ∧
    chunkOpsFrom ⟨0, 0, 0, 0⟩ img1x2 1 2 ≠ chunkOps img1x2 1 2 := by decide

/-- C4 (amended): `getPixel` returns the default pixel `(0, 0, 0, 255)` —
not `(0, 0, 0, 0)` — for every out-of-bounds coordinate, and the chunk
encoder is total on structurally valid images: every byte of every
`encodeQoi` result is a valid byte value below 256. -/
theorem C4_oob_total :
    (∀ (img : Image) (x y : Nat), img.width ≤ x ∨ img.height ≤ y →
      img.getPixel x y = ⟨0, 0, 0, 255⟩) ∧
    (∀ img : Image, (∀ p ∈ img.pixels, pixelBounded p) →
      ∀ s e : Nat, ∀ b ∈ encodeQoi img s e, b < 256) := by
  constructor
  · intro img x y h
    rw [Image.getPixel, if_neg (by omega)]
    rfl
  · intro img hv s e
    exact encodeQoi_bytes_lt256 img hv s e

/-- C4 witness: the out-of-bounds read `(5, 5)` on a 1-by-1 image and a
byte of its serial encoding. -/
theorem C4_oob_total_witness :
    img1x1.getPixel 5 5 = ⟨0, 0, 0, 255⟩ ∧ (113 : Nat) < 256 :=
  ⟨C4_oob_total.1 img1x1 5 5 (Or.inl (by decide)),
   C4_oob_total.2 img1x1
     (by
       intro q hq
       simp only [img1x1, List.mem_singleton] at hq
       subst hq
       exact defaultPixel_bounded)
     0 1 113 (by decide)⟩

/-- C4 counterexample: an out-of-bounds read yields `(0, 0, 0, 255)`,
not the `(0, 0, 0, 0)` the claim states. -/
theorem C4_counterexample :
    img1x1.getPixel 5 5 = ⟨0, 0, 0, 255⟩ ∧
    img1x1.getPixel 5 5 ≠ ⟨0, 0, 0, 0⟩ := by decide

/-- C6 (amended): on the 2-by-1 image with both pixels `(255, 0, 0, 255)`
the single-threaded output is the 14-byte header, one DIFF opcode byte
`0x5A` for the first pixel (which differs from the initial previous pixel
`(0, 0, 0, 255)` by `vr = -1`), one RUN opcode byte `0xC0` of run length 1
for the second pixel, and the 8-byte end marker: 24 bytes in total. -/
theorem C6_two_pixel :
    mainOutput img2x1red 1 =
      qoiHeaderBytes img2x1red ++ [0x5A, 0xC0] ++ qoiEndMarker ∧
    (mainOutput img2x1red 1).length = 24 := by decide

/-- C6 counterexample: the single-threaded output is not
header plus a single RUN opcode of length 2 plus end marker, and its
length is 24, not 23. -/
theorem C6_counterexample :
    mainOutput img2x1red 1 ≠
      qoiHeaderBytes img2x1red ++ [0xC1] ++ qoiEndMarker ∧
    (mainOutput img2x1red 1).length ≠ 23 := by decide

/-- C8: one `encodeQoi` invocation appends the 8-byte end marker exactly
when the `std::size_t` sum `end_y + 1` is at least the height; in
particular the marker is appended even when `end_y` equals `height - 1`,
one row short of the image height, and it is not appended at
`end_y = 2 ^ 64 - 1`, where the sum wraps to 0. -/
theorem C8_footer_boundary (img : Image) (s e : Nat) :
    (img.height ≤ (e + 1) % sizeTMod →
      encodeQoi img s e = encodeQoiCore img s e ++ qoiEndMarker) ∧
    ((e + 1) % sizeTMod < img.height → encodeQoi img s e = encodeQoiCore img s e) ∧
    (1 ≤ img.height → img.height < sizeTMod →
      encodeQoi img s (img.height - 1) =
        encodeQoiCore img s (img.height - 1) ++ qoiEndMarker) ∧
    (1 ≤ img.height →
      encodeQoi img s (sizeTMod - 1) = encodeQoiCore img s (sizeTMod - 1)) := by
  refine ⟨?_, ?_, ?_, ?_⟩
  · intro h
    rw [encodeQoi, if_pos h]
  · intro h
    rw [encodeQoi, if_neg (by omega), List.append_nil]
  · intro h hM
    have he : img.height - 1 + 1 = img.height := by omega
    rw [encodeQoi, if_pos (by rw [he, Nat.mod_eq_of_lt hM])]
  · intro h
    have hM0 : 0 < sizeTMod := by norm_num [sizeTMod]
    have he : sizeTMod - 1 + 1 = sizeTMod := by omega
    rw [encodeQoi, if_neg (by rw [he, Nat.mod_self]; omega), List.append_nil]

/-- C8 witness: on a 1-by-1 image the single chunk `[0, 0)` appends the
marker; on a 1-by-2 image the chunk `[0, 0)` does not; the chunk ending at
`height - 1 = 1` of the 1-by-2 image appends the marker although it is one
row short of the height; and at `end_y = 2 ^ 64 - 1` (as the planner's
underflow produces) no marker is appended because `end_y + 1` wraps. -/
theorem C8_footer_boundary_witness :
    (encodeQoi img1x1 0 0 = encodeQoiCore img1x1 0 0 ++ qoiEndMarker) ∧
    (encodeQoi img1x2 0 0 = encodeQoiCore img1x2 0 0) ∧
    (encodeQoi img1x2 0 (img1x2.height - 1) =
      encodeQoiCore img1x2 0 (img1x2.height - 1) ++ qoiEndMarker) ∧
    (encodeQoi img1x1 0 (sizeTMod - 1) = encodeQoiCore img1x1 0 (sizeTMod - 1)) :=
  ⟨(C8_footer_boundary img1x1 0 0).1 (by decide),
   (C8_footer_boundary img1x2 0 0).2.1 (by decide),
   (C8_footer_boundary img1x2 0 0).2.2.1 (by decide) (by decide),
   (C8_footer_boundary img1x1 0 0).2.2.2 (by decide)⟩

end Pam2qoi

namespace Pam2qoi

/-- C5 (amended): on a 200-by-1 image holding one repeated pixel value `p`,
the single chunk's body is pure run encoding after the first pixel: when
`p` is the initial previous pixel `(0, 0, 0, 255)` all 200 pixels are
covered by three LONG_RUN opcodes and a RUN of 14 (run lengths summing to
200); for every other `p` the first pixel produces exactly one non-run
opcode and the remaining 199 repeats are covered by three LONG_RUN opcodes
and a RUN of 13 (run lengths summing to 199). -/
theorem C5_runs (p : Pixel) :
    (p = defaultPixel →
      chunkOps (img200 p) 0 1 = [Op.longRun, Op.longRun, Op.longRun, Op.run 14] ∧
      runLengthSum (chunkOps (img200 p) 0 1) = 200) ∧
    (p ≠ defaultPixel → ∃ t, t.isRunOp = false ∧
      chunkOps (img200 p) 0 1 =
        t :: [Op.longRun, Op.longRun, Op.longRun, Op.run 13] ∧
      runLengthSum (chunkOps (img200 p) 0 1) = 199) := by
  have hdefault : chunkOps (img200 defaultPixel) 0 1 =
      [Op.longRun, Op.longRun, Op.longRun, Op.run 14] := by
    simp only [chunkOps]
    rw [chunkPixels_img200]
    rw [show initState 0 = ⟨initIndex 0, defaultPixel, 0, []⟩ from rfl]
    rw [foldl_replicate_same defaultPixel 200 (initIndex 0) 0 [] (by norm_num)]
    norm_num
    rfl
  constructor
  · intro hp
    subst hp
    refine ⟨hdefault, ?_⟩
    rw [hdefault]
    decide
  · intro hp
    obtain ⟨t, ht, heq⟩ := chunkOps_img200_fresh p hp
    refine ⟨t, ht, heq, ?_⟩
    rw [heq]
    simp only [runLengthSum, List.map_cons, List.map_nil, List.sum_cons,
      List.sum_nil, opRunLen_eq_zero t ht]
    decide

/-- C5 witness: the repeated pixel `(255, 0, 0, 255)`. -/
theorem C5_runs_witness :
    ∃ t, t.isRunOp = false ∧
      chunkOps (img200 ⟨255, 0, 0, 255⟩) 0 1 =
        t :: [Op.longRun, Op.longRun, Op.longRun, Op.run 13] ∧
      runLengthSum (chunkOps (img200 ⟨255, 0, 0, 255⟩) 0 1) = 199 :=
  (C5_runs ⟨255, 0, 0, 255⟩).2 (by decide)

/-- C5 counterexample: for the repeated pixel `(255, 0, 0, 255)` the
single-threaded body is not made of run opcodes only (the first pixel
is a DIFF against the initial previous pixel `(0, 0, 0, 255)`), and the
run lengths sum to 199, not 200. -/
theorem C5_counterexample :
    ¬ ((∀ op ∈ chunkOps (img200 ⟨255, 0, 0, 255⟩) 0 1, op.isRunOp = true) ∧
      runLengthSum (chunkOps (img200 ⟨255, 0, 0, 255⟩) 0 1) = 200) := by
  obtain ⟨t, ht, heq⟩ := chunkOps_img200_fresh ⟨255, 0, 0, 255⟩ (by decide)
  rintro ⟨hall, hsum⟩
  have hmem : t ∈ chunkOps (img200 ⟨255, 0, 0, 255⟩) 0 1 := by
    rw [heq]
    exact List.mem_cons_self _ _
  have := hall t hmem
  rw [ht] at this
  exact Bool.noConfusion this

/-- C7 (amended): for a pixel whose deltas against the previous-pixel
register are `(vr, vg, vb) = (1, -1, 0)` with unchanged alpha, the encoder
emits (after any pending run flush) exactly one opcode for the pixel: the
DIFF opcode byte `0x76` whenever the pixel does not hit the index table,
and an INDEX opcode when it does; in neither case a LUMA, RGB or RGBA
opcode. -/
theorem C7_diff_priority (st : EncState) (p : Pixel)
    (hne : p ≠ st.previous_pixel)
    (ha : p.a = st.previous_pixel.a)
    (hr : toInt8 ((p.r : Int) - (st.previous_pixel.r : Int)) = 1)
    (hg : toInt8 ((p.g : Int) - (st.previous_pixel.g : Int)) = -1)
    (hb : toInt8 ((p.b : Int) - (st.previous_pixel.b : Int)) = 0) :
    (st.index.getD (pixelHash p) none ≠ some p →
      (encodePixel st p).out =
        st.out ++ (if st.run ≠ 0 then [Op.run st.run] else []) ++ [Op.diff 0x76]) ∧
    (st.index.getD (pixelHash p) none = some p →
      (encodePixel st p).out =
        st.out ++ (if st.run ≠ 0 then [Op.run st.run] else []) ++
          [Op.index (pixelHash p)]) := by
  simp only [encodePixel]
  rw [if_neg hne]
  constructor
  · intro hmiss
    rw [if_neg hmiss]
    rw [if_neg (fun hcon => hcon ha)]
    rw [hr, hg, hb]
    rw [if_pos (by decide)]
    have hbyte : Nat.lor 0x40 (Nat.lor (((1 : Int) + 2).toNat <<< 4)
        (Nat.lor ((((-1) : Int) + 2).toNat <<< 2) ((0 : Int) + 2).toNat)) =
        0x76 := by decide
    rw [hbyte]
    by_cases hrn : st.run ≠ 0 <;> simp [hrn]
  · intro hhit
    rw [if_pos hhit]
    by_cases hrn : st.run ≠ 0 <;> simp [hrn]

/-- C7 witness: both cases at concrete inputs. The pixel
`(1, 255, 0, 255)` has deltas `(1, -1, 0)` against the fresh previous
pixel `(0, 0, 0, 255)`; with the empty index table of a `start_y = 1`
chunk it misses and yields the DIFF byte `0x76`, and with the same table
pre-seeded at its hash slot it hits and yields INDEX instead. -/
theorem C7_diff_priority_witness :
    (encodePixel (initState 1) ⟨1, 255, 0, 255⟩).out = [Op.diff 0x76] ∧
    (encodePixel
        ⟨(initIndex 1).set (pixelHash ⟨1, 255, 0, 255⟩) (some ⟨1, 255, 0, 255⟩),
          defaultPixel, 0, []⟩ ⟨1, 255, 0, 255⟩).out =
      [Op.index (pixelHash ⟨1, 255, 0, 255⟩)] :=
  ⟨(C7_diff_priority (initState 1) ⟨1, 255, 0, 255⟩ (by decide) (by decide)
      (by decide) (by decide) (by decide)).1 (by decide),
   (C7_diff_priority
      ⟨(initIndex 1).set (pixelHash ⟨1, 255, 0, 255⟩) (some ⟨1, 255, 0, 255⟩),
        defaultPixel, 0, []⟩ ⟨1, 255, 0, 255⟩ (by decide) (by decide)
      (by decide) (by decide) (by decide)).2 (by decide)⟩

/-- C7 counterexample: on the 2-by-1 image with pixels `(255, 1, 0, 0)`
then `(0, 0, 0, 0)` the adjacent deltas are `(1, -1, 0)` with unchanged
alpha, yet the second pixel is encoded as `INDEX 0` (a prefilled
index-table hit), not as a DIFF opcode. -/
theorem C7_counterexample :
    toInt8 (((img2x1hit.getPixel 1 0).r : Int) - ((img2x1hit.getPixel 0 0).r : Int)) = 1 ∧
    toInt8 (((img2x1hit.getPixel 1 0).g : Int) - ((img2x1hit.getPixel 0 0).g : Int)) = -1 ∧
    toInt8 (((img2x1hit.getPixel 1 0).b : Int) - ((img2x1hit.getPixel 0 0).b : Int)) = 0 ∧
    (img2x1hit.getPixel 1 0).a = (img2x1hit.getPixel 0 0).a ∧
    chunkOps img2x1hit 0 1 = [Op.rgba 255 1 0 0, Op.index 0] ∧
    ((chunkOps img2x1hit 0 1).getD 1 Op.longRun).isDiffOp = false := by decide

/-- C9 (amended): an absent worker-count argument falls back to the
detected hardware concurrency and the program proceeds with encoding; an
argument rejected by `std::stoul` — non-numeric (`std::invalid_argument`)
or a digit group beyond the unsigned 64-bit range (`std::out_of_range`) —
makes the program fail with that error instead of falling back, while an
accepted argument makes encoding proceed with the parsed value narrowed to
`unsigned int`; a numeric value below 2 selects the serial single-chunk
encoding path. -/
theorem C9_threads (hwc : Nat) (img : Image) (s : List Char) (e : String) :
    (0 < img.width → 0 < img.height →
      mainResult none hwc img = Except.ok (mainOutput img hwc)) ∧
    (stoulModel s = Except.error e →
      mainResult (some s) hwc img = Except.error e) ∧
    (∀ v, stoulModel s = Except.ok v → 0 < img.width → 0 < img.height →
      mainResult (some s) hwc img = Except.ok (mainOutput img (v % 2 ^ 32))) ∧
    (∀ t, t < 2 → mainOutput img t = encodeQoi img 0 img.height) := by
  refine ⟨?_, ?_, ?_, ?_⟩
  · intro h1 h2
    simp [mainResult, threadCount, h1, h2]
  · intro herr
    simp [mainResult, threadCount, herr]
  · intro v hok h1 h2
    simp [mainResult, threadCount, hok, h1, h2]
  · intro t ht
    rw [mainOutput, if_pos ht]

/-- C9 witness: hardware concurrency 8 on the 1-by-1 image; the
non-numeric argument `"x"` and the out-of-range numeral
`"18446744073709551616"` both fail; the argument `"\x0b5"` (vertical tab
then `5`) is accepted by the whitespace skip and parses to 5; worker
count 1 selects the serial path. -/
theorem C9_threads_witness :
    (mainResult none 8 img1x1 = Except.ok (mainOutput img1x1 8)) ∧
    (mainResult (some ['x']) 8 img1x1 = Except.error "invalid argument") ∧
    (mainResult (some ['1', '8', '4', '4', '6', '7', '4', '4', '0', '7',
        '3', '7', '0', '9', '5', '5', '1', '6', '1', '6']) 8 img1x1 =
      Except.error "out of range") ∧
    (mainResult (some ['\x0b', '5']) 8 img1x1 =
      Except.ok (mainOutput img1x1 (5 % 2 ^ 32))) ∧
    (mainOutput img1x1 1 = encodeQoi img1x1 0 img1x1.height) :=
  ⟨(C9_threads 8 img1x1 ['x'] "invalid argument").1 (by decide) (by decide),
   (C9_threads 8 img1x1 ['x'] "invalid argument").2.1 rfl,
   (C9_threads 8 img1x1 ['1', '8', '4', '4', '6', '7', '4', '4', '0', '7',
      '3', '7', '0', '9', '5', '5', '1', '6', '1', '6'] "out of range").2.1 rfl,
   (C9_threads 8 img1x1 ['\x0b', '5'] "invalid argument").2.2.1 5 rfl
     (by decide) (by decide),
   (C9_threads 8 img1x1 ['x'] "invalid argument").2.2.2 1 (by decide)⟩

/-- C9 counterexample: on the non-numeric argument `"x"` the program
fails with the `std::stoul` error instead of falling back to the hardware
concurrency and encoding. -/
theorem C9_counterexample :
    mainResult (some ['x']) 8 img1x1 = Except.error "invalid argument" ∧
    mainResult (some ['x']) 8 img1x1 ≠ Except.ok (mainOutput img1x1 8) := by
  refine ⟨rfl, ?_⟩
  intro hcon
  rw [show mainResult (some ['x']) 8 img1x1 =
    Except.error "invalid argument" from rfl] at hcon
  exact Except.noConfusion hcon

end Pam2qoi

namespace Pam2qoi

/-- C10: every RUN opcode in a chunk body encodes a length between 1 and
61, its byte is `0xC0 + (length - 1)` in `[0xC0, 0xFC]`, and the tag byte
values `0xFD`, `0xFE`, `0xFF` are only ever emitted as the LONG_RUN, RGB
and RGBA tags respectively — a flushed RUN byte never collides with them,
because the run counter is reset through the LONG_RUN path at 62. -/
theorem C10_run_bytes (img : Image) (s e : Nat) (op : Op)
    (hmem : op ∈ chunkOps img s e) :
    (∀ n, op = Op.run n → 1 ≤ n ∧ n ≤ 61 ∧ Op.bytes op = [192 + (n - 1)] ∧
      192 + (n - 1) ≤ 0xFC) ∧
    ((Op.bytes op).headD 0 = 0xFD → op = Op.longRun) ∧
    ((Op.bytes op).headD 0 = 0xFE → op.isRgbOp = true) ∧
    ((Op.bytes op).headD 0 = 0xFF → op.isRgbaOp = true) := by
  have htag := chunkOps_tagOk img s e op hmem
  cases op with
  | index slot =>
    simp only [Op.tagOk] at htag
    have h0 : Nat.lor 0 slot = slot := Nat.zero_or slot
    refine ⟨fun n hn => Op.noConfusion hn, ?_, ?_, ?_⟩ <;>
      · intro hbyte
        simp only [Op.bytes, List.headD_cons] at hbyte
        rw [h0] at hbyte
        omega
  | diff byte =>
    obtain ⟨h1, h2⟩ := htag
    refine ⟨fun n hn => Op.noConfusion hn, ?_, ?_, ?_⟩ <;>
      · intro hbyte
        simp only [Op.bytes, List.headD_cons] at hbyte
        omega
  | luma b1 b2 =>
    obtain ⟨h1, h2, h3⟩ := htag
    refine ⟨fun n hn => Op.noConfusion hn, ?_, ?_, ?_⟩ <;>
      · intro hbyte
        simp only [Op.bytes, List.headD_cons] at hbyte
        omega
  | run len =>
    obtain ⟨h1, h2⟩ := htag
    have hlor : Nat.lor 192 (len - 1) = 192 + (len - 1) := lor192_eq _ (by omega)
    refine ⟨?_, ?_, ?_, ?_⟩
    · intro n hn
      injection hn with h
      subst h
      refine ⟨h1, h2, ?_, by omega⟩
      simp only [Op.bytes, hlor]
    · intro hbyte
      simp only [Op.bytes, List.headD_cons] at hbyte
      rw [hlor] at hbyte
      omega
    · intro hbyte
      simp only [Op.bytes, List.headD_cons] at hbyte
      rw [hlor] at hbyte
      omega
    · intro hbyte
      simp only [Op.bytes, List.headD_cons] at hbyte
      rw [hlor] at hbyte
      omega
  | longRun =>
    refine ⟨fun n hn => Op.noConfusion hn, fun _ => rfl, ?_, ?_⟩ <;>
      · intro hbyte
        simp only [Op.bytes, List.headD_cons] at hbyte
        omega
  | rgb r g b =>
    refine ⟨fun n hn => Op.noConfusion hn, ?_, fun _ => rfl, ?_⟩ <;>
      · intro hbyte
        simp only [Op.bytes, List.headD_cons] at hbyte
        omega
  | rgba r g b a =>
    refine ⟨fun n hn => Op.noConfusion hn, ?_, ?_, fun _ => rfl⟩ <;>
      · intro hbyte
        simp only [Op.bytes, List.headD_cons] at hbyte
        omega

/-- C10 witness: the RUN opcode of length 1 of the serial encoding of the
1-by-1 default-pixel image. -/
theorem C10_run_bytes_witness :
    1 ≤ 1 ∧ (1 : Nat) ≤ 61 ∧ Op.bytes (Op.run 1) = [192 + (1 - 1)] ∧
      192 + (1 - 1) ≤ 0xFC :=
  (C10_run_bytes img1x1 0 1 (Op.run 1) (by decide)).1 1 rfl

end Pam2qoi

namespace Pam2qoi

/-- C1 (amended): for every image with at least one row and every worker
count `T` that is either below 2 (serial path) or satisfies
`2 * T ≤ height` (so `lines_per_pack ≥ 2` and the planner partition is
exact, and the `std::size_t` sum `end_y + 1` of the footer test cannot
wrap), the concatenated output is the 14-byte header, then the chunk
bodies, then the 8-byte end marker; exactly one planned range starts at
row 0 (the only one that emits the header) and it contains row 0, and
exactly one planned range passes the footer test `height ≤ end_y + 1`
(the only one that emits the marker) and it contains the last row. The
restriction on `T` is forced: with `lines_per_pack = 1` the second-to-last
chunk also passes the footer test, and with `height < T` the planner emits
a zero-length or overlong first range. -/
theorem C1_header_footer (img : Image) (T : Nat) (hH : 1 ≤ img.height)
    (hM : img.height + 1 < sizeTMod) (hT : T < 2 ∨ 2 * T ≤ img.height) :
    ∃ mid,
      mainOutput img T = qoiHeaderBytes img ++ mid ++ qoiEndMarker ∧
      ((plannedRanges img T).filter (fun r => decide (r.1 = 0))).length = 1 ∧
      ((plannedRanges img T).filter
        (fun r => decide (img.height ≤ r.2 + 1))).length = 1 ∧
      (∀ r ∈ plannedRanges img T, r.1 = 0 → 0 < r.2) ∧
      (∀ r ∈ plannedRanges img T, img.height ≤ r.2 + 1 →
        r.1 ≤ img.height - 1 ∧ img.height - 1 < r.2) := by
  by_cases hT2 : T < 2
  · have hpr : plannedRanges img T = [(0, img.height)] := by
      rw [plannedRanges, if_pos hT2]
    refine ⟨(chunkOps img 0 img.height).flatMap Op.bytes, ?_, ?_, ?_, ?_, ?_⟩
    · rw [mainOutput, if_pos hT2, encodeQoi,
        if_pos (by rw [Nat.mod_eq_of_lt hM]; omega), encodeQoiCore,
        if_pos rfl, List.append_assoc]
    · rw [hpr]
      simp
    · rw [hpr]
      have hc : img.height ≤ img.height + 1 := by omega
      simp [List.filter_cons, hc]
    · rw [hpr]
      intro r hr _
      rw [List.mem_singleton] at hr
      subst hr
      exact hH
    · rw [hpr]
      intro r hr _
      rw [List.mem_singleton] at hr
      subst hr
      exact ⟨Nat.zero_le _, by omega⟩
  · have hge : 2 * T ≤ img.height := hT.resolve_left hT2
    have hTle : T ≤ img.height := by omega
    set lpp := img.height / T with hlppdef
    set first := img.height - (T - 1) * lpp with hfirstdef
    have hlpp2 : 2 ≤ lpp := (Nat.le_div_iff_mul_le (by omega)).2 hge
    have hmul : (T - 1) * lpp + lpp = T * lpp := by
      have hT1 : T - 1 + 1 = T := by omega
      calc (T - 1) * lpp + lpp = (T - 1 + 1) * lpp := (Nat.succ_mul _ _).symm
      _ = T * lpp := by rw [hT1]
    have hTlpp : T * lpp ≤ img.height := by
      rw [hlppdef, Nat.mul_comm]
      exact Nat.div_mul_le_self img.height T
    have h2lpp : 2 * lpp ≤ T * lpp := Nat.mul_le_mul_right _ (by omega)
    have hle : (T - 1) * lpp ≤ img.height := by omega
    have hsum1 : first + (T - 1) * lpp = img.height := by
      rw [hfirstdef]
      exact Nat.sub_add_cancel hle
    have hfge : lpp ≤ first := by omega
    have hfle : first + lpp ≤ img.height := by omega
    have hT1 : T - 1 = (T - 2) + 1 := by omega
    have hclosed : planChunks img.height T =
        (0, first) :: chunksFrom first lpp ((T - 2) + 1) := by
      rw [← hT1]
      exact planChunks_closed img.height T (by omega) hTle (by omega)
    have hsum : first + ((T - 2) + 1) * lpp = img.height := by
      rw [← hT1]
      exact hsum1
    have hranges : plannedRanges img T =
        (0, first) :: chunksFrom first lpp ((T - 2) + 1) := by
      rw [plannedRanges, if_neg hT2, hclosed]
    have hf1 : first + 1 < sizeTMod := by omega
    have hnof : ¬ (img.height ≤ (first + 1) % sizeTMod) := by
      rw [Nat.mod_eq_of_lt hf1]
      omega
    have hnof0 : ¬ (img.height ≤ first + 1) := by omega
    obtain ⟨mid2, hmid2⟩ :=
      flatten_chunksFrom img lpp hlpp2 hM (T - 2) first (by omega) hsum
    refine ⟨(chunkOps img 0 first).flatMap Op.bytes ++ mid2, ?_, ?_, ?_, ?_, ?_⟩
    · rw [mainOutput, if_neg hT2, hclosed]
      simp only [List.map_cons, List.flatten_cons]
      rw [hmid2]
      rw [encodeQoi, if_neg hnof, List.append_nil, encodeQoiCore, if_pos rfl]
      simp [List.append_assoc]
    · rw [hranges]
      have htail : (chunksFrom first lpp ((T - 2) + 1)).filter
          (fun r => decide (r.1 = 0)) = [] := by
        rw [List.filter_eq_nil_iff]
        intro r hr
        have hfst := chunksFrom_fst_ge lpp ((T - 2) + 1) first r hr
        simp only [decide_eq_true_eq]
        omega
      have hhead : ((0 : Nat), first).1 = 0 := rfl
      simp [List.filter_cons, htail, hhead]
    · rw [hranges]
      have hheadf : ¬ (img.height ≤ ((0 : Nat), first).2 + 1) := hnof0
      simp only [List.filter_cons, decide_eq_true_eq, if_neg hheadf]
      exact chunksFrom_footer_filter lpp img.height hlpp2 (T - 2) first hsum
    · rw [hranges]
      intro r hr h0
      rw [List.mem_cons] at hr
      rcases hr with rfl | hr
      · simp only
        omega
      · have hfst := chunksFrom_fst_ge lpp ((T - 2) + 1) first r hr
        omega
    · rw [hranges]
      intro r hr hfoot
      rw [List.mem_cons] at hr
      rcases hr with rfl | hr
      · exact absurd hfoot hnof0
      · have hr2 := chunksFrom_footer_mem lpp img.height hlpp2 (T - 2) first r
          hsum hr hfoot
        subst hr2
        exact ⟨by omega, by omega⟩

/-- C1 witness: a 1-by-4 default-pixel image encoded with 2 workers
(chunks `[0, 2)` and `[2, 4)`). -/
theorem C1_header_footer_witness :
    ∃ mid,
      mainOutput img1x4 2 = qoiHeaderBytes img1x4 ++ mid ++ qoiEndMarker ∧
      ((plannedRanges img1x4 2).filter (fun r => decide (r.1 = 0))).length = 1 ∧
      ((plannedRanges img1x4 2).filter
        (fun r => decide (img1x4.height ≤ r.2 + 1))).length = 1 ∧
      (∀ r ∈ plannedRanges img1x4 2, r.1 = 0 → 0 < r.2) ∧
      (∀ r ∈ plannedRanges img1x4 2, img1x4.height ≤ r.2 + 1 →
        r.1 ≤ img1x4.height - 1 ∧ img1x4.height - 1 < r.2) :=
  C1_header_footer img1x4 2 (by decide) (by decide) (Or.inr (by decide))

/-- C1 counterexample: on a 1-by-3 image with 2 workers the planner
produces the ranges `[0, 2)` and `[2, 3)`, and both pass the footer test
`end_y + 1 >= height`, so the 8-byte end marker occurs twice in the
concatenated output — not exactly once at the very end. -/
theorem C1_counterexample :
    countOcc qoiEndMarker (mainOutput img1x3 2) = 2 := by decide

end Pam2qoi
